import Mathlib

/-!
Verification of the Knowledge-Assembly-RNN repository.

The repository builds synthetic magnitude-comparison trial sequences
(src/define_dataset.py), trains and evaluates a one-step recurrent network
over them (src/magnitude_network.py), and evaluates lesioned variants of the
inputs.  This file gives a shallow embedding of the data-construction and
simulation loops that the verified properties are about, and proves (or
refutes) those properties.

Conventions:
- numpy float values are modelled as rationals; NaN labels are modelled as
  the none case of an Option;
- the pseudo-random draws of random.choice / random.randint are modelled as
  an explicit oracle stream of values, consumed in the order the source
  draws them; a resampling while-loop consumes stream elements until its
  exit condition holds (and fails with none on stream exhaustion);
- hidden-state vectors are modelled as functions from unit index to rational.
-/

namespace KnowledgeAssembly

/-! ### Constants (src/constants.py) -/

def TOTALMAXNUM : Nat := 8
def NCONTEXTS : Nat := 2
def NTYPEBITS : Nat := 1

def FULLR_LLIM : Nat := 1
def FULLR_ULIM : Nat := 8
def LOWR_LLIM : Nat := 1
def LOWR_ULIM : Nat := 4
def HIGHR_LLIM : Nat := 5
def HIGHR_ULIM : Nat := 8

def NTRAIN : Nat := 2880
def NTEST : Nat := 480
def MBLOCKS : Nat := 24

/-- np.mean over the python range lo..hi (inclusive of lo, exclusive of hi+1),
as used for the CONTEXT_*_MEAN constants. -/
def rangeMean (lo hi : Nat) : ℚ :=
  (((List.range' lo (hi + 1 - lo)).map (fun n => (n : ℚ))).sum) / ((hi + 1 - lo : Nat) : ℚ)

def CONTEXT_FULL_MEAN : ℚ := rangeMean FULLR_LLIM FULLR_ULIM
def CONTEXT_LOW_MEAN : ℚ := rangeMean LOWR_LLIM LOWR_ULIM
def CONTEXT_HIGH_MEAN : ℚ := rangeMean HIGHR_LLIM HIGHR_ULIM
/-- GLOBAL_MEAN is the literal 4.5 in src/constants.py. -/
def GLOBAL_MEAN : ℚ := 9 / 2

/-! ### One-hot encoding (src/define_dataset.py, turn_one_hot /
turn_one_hot_to_integer)

turn_one_hot allocates a zero vector of length maxSize and sets index
integer - (NCONTEXTS - 1) = integer - 1 to one.  numpy wraps a negative
index (only possible here for integer = 0), so the index is computed over
the integers; an out-of-range set is modelled as a no-op where numpy would
raise IndexError (never reached by the callers, which pass 1-based values).
-/

def turn_one_hot (integer : Int) (maxSize : Nat) : List Int :=
  let idx : Int := integer - ((NCONTEXTS : Int) - 1)
  let pos : Int := if idx < 0 then (maxSize : Int) + idx else idx
  (List.replicate maxSize (0 : Int)).set pos.toNat 1

/-- Indices of the nonzero entries of a vector, offset by the running index:
the shallow embedding of np.nonzero applied to a column vector. -/
def nonzero_indices : List Int → Nat → List Nat
  | [], _ => []
  | x :: xs, k =>
    if x ≠ 0 then k :: nonzero_indices xs (k + 1) else nonzero_indices xs (k + 1)

/-- turn_one_hot_to_integer returns the nonzero indices plus one (numpy
returns an array; the list of recovered integers models it). -/
def turn_one_hot_to_integer (onehot : List Int) : List Nat :=
  (nonzero_indices onehot 0).map (fun k => k + 1)

lemma nonzero_indices_replicate_zero (b k : Nat) :
    nonzero_indices (List.replicate b (0 : Int)) k = [] := by
  induction b generalizing k with
  | zero => rfl
  | succ b ih => simp [List.replicate_succ, nonzero_indices, ih]

lemma nonzero_indices_one_hot (a b k : Nat) :
    nonzero_indices (List.replicate a (0 : Int) ++ 1 :: List.replicate b (0 : Int)) k
      = [k + a] := by
  induction a generalizing k with
  | zero => simp [nonzero_indices, nonzero_indices_replicate_zero]
  | succ a ih =>
    have hstep : nonzero_indices
        ((0 : Int) :: (List.replicate a (0 : Int) ++ 1 :: List.replicate b (0 : Int))) k
        = nonzero_indices (List.replicate a (0 : Int) ++ 1 :: List.replicate b (0 : Int))
            (k + 1) := by
      simp [nonzero_indices]
    rw [List.replicate_succ, List.cons_append, hstep, ih]
    congr 1
    omega

lemma set_replicate_zero (m k : Nat) (h : k < m) :
    (List.replicate m (0 : Int)).set k 1
      = List.replicate k (0 : Int) ++ 1 :: List.replicate (m - k - 1) (0 : Int) := by
  induction k generalizing m with
  | zero =>
    cases m with
    | zero => omega
    | succ m => simp [List.replicate_succ]
  | succ k ih =>
    cases m with
    | zero => omega
    | succ m =>
      have hkm : k < m := by omega
      have hsub : m + 1 - (k + 1) - 1 = m - k - 1 := by omega
      simp only [List.replicate_succ, List.set_cons_succ, List.cons_append, ih m hkm, hsub]

/-- C10: one-hot encoding round-trip: for 1 <= n <= maxSize, decoding the
one-hot vector produced for n recovers n (as the single recovered integer);
moreover the single 1 sits at index n - 1. -/
theorem one_hot_round_trip (n maxSize : Nat) (h1 : 1 ≤ n) (h2 : n ≤ maxSize) :
    turn_one_hot_to_integer (turn_one_hot (n : Int) maxSize) = [n] ∧
    (turn_one_hot (n : Int) maxSize)[n - 1]? = some 1 := by
  have hcast : ((NCONTEXTS : Int) - 1) = 1 := by
    norm_num [NCONTEXTS]
  have hpos : ¬ ((n : Int) - ((NCONTEXTS : Int) - 1) < 0) := by
    rw [hcast]
    omega
  have hidx : ((n : Int) - ((NCONTEXTS : Int) - 1)).toNat = n - 1 := by
    rw [hcast]
    omega
  have hform : turn_one_hot (n : Int) maxSize
      = List.replicate (n - 1) (0 : Int) ++ 1 :: List.replicate (maxSize - n) (0 : Int) := by
    simp only [turn_one_hot]
    rw [if_neg hpos, hidx]
    rw [set_replicate_zero maxSize (n - 1) (by omega)]
    have hsub : maxSize - (n - 1) - 1 = maxSize - n := by omega
    rw [hsub]
  constructor
  · rw [hform]
    unfold turn_one_hot_to_integer
    rw [nonzero_indices_one_hot]
    simp only [List.map_cons, List.map_nil]
    congr 1
    omega
  · rw [hform]
    have hlen : (List.replicate (n - 1) (0 : Int)).length ≤ n - 1 := by simp
    rw [List.getElem?_append_right hlen]
    simp

/-- Witness for one_hot_round_trip at n = 3, maxSize = 8. -/
theorem one_hot_round_trip_witness :
    (1 ≤ 3 ∧ 3 ≤ 8) ∧
    (turn_one_hot_to_integer (turn_one_hot (3 : Int) 8) = [3] ∧
      (turn_one_hot (3 : Int) 8)[3 - 1]? = some 1) :=
  ⟨⟨by decide, by decide⟩, one_hot_round_trip 3 8 (by decide) (by decide)⟩

/-! ### Comparison-label assignment (src/define_dataset.py,
create_separate_input_data, the labelling loop)

The loop walks the generated sequence with a running rValue (None at the
start of each sequence).  At a compare position it stores
1 if judgeValue > rValue else 0, overwritten with NaN when the two values
fall in the disjoint low/high sub-ranges and train_long is false; when no
rValue is set yet it stores None (NaN in the float array).  Filler
positions are never written (the target array comes from np.empty).
Positions are modelled as pairs (trialtypeinput entry, stimulus integer);
decoding the stored one-hot input recovers the integer itself, so the loop
is modelled directly on the integer values. -/

inductive LabelEntry
  | uninit
  | nanL
  | bit (b : Nat)
  deriving DecidableEq

def computeLabels (trainLong : Bool) : List (Nat × Nat) → Option Nat → List LabelEntry
  | [], _ => []
  | (t, v) :: rest, rValue =>
    if t = 1 then
      let entry :=
        match rValue with
        | none => LabelEntry.nanL
        | some r =>
          if trainLong = false ∧
              ((v ≤ LOWR_ULIM ∧ HIGHR_LLIM ≤ r) ∨ (HIGHR_LLIM ≤ v ∧ r ≤ LOWR_ULIM)) then
            LabelEntry.nanL
          else
            LabelEntry.bit (if r < v then 1 else 0)
      entry :: computeLabels trainLong rest (some v)
    else
      LabelEntry.uninit :: computeLabels trainLong rest rValue

/-- The judged value of the most recent compare position strictly before
position i, falling back to the incoming reference when there is none:
the reference value the claim speaks about. -/
def refAt : List (Nat × Nat) → Option Nat → Nat → Option Nat
  | _, r, 0 => r
  | [], r, _ + 1 => r
  | (t, v) :: rest, r, i + 1 => refAt rest (if t = 1 then some v else r) i

/-- The label the claim prescribes for a compare trial with judged value v
and reference value r. -/
def labelRule (trainLong : Bool) (v r : Nat) : LabelEntry :=
  if trainLong = false ∧
      ((v ≤ LOWR_ULIM ∧ HIGHR_LLIM ≤ r) ∨ (HIGHR_LLIM ≤ v ∧ r ≤ LOWR_ULIM)) then
    LabelEntry.nanL
  else
    LabelEntry.bit (if r < v then 1 else 0)

lemma computeLabels_refAt (trainLong : Bool) (trials : List (Nat × Nat)) :
    ∀ (rv : Option Nat) (i t v r : Nat),
    trials[i]? = some (t, v) → t = 1 → refAt trials rv i = some r →
    (computeLabels trainLong trials rv)[i]? = some (labelRule trainLong v r) := by
  induction trials with
  | nil =>
    intro rv i t v r hget
    simp at hget
  | cons p rest ih =>
    intro rv i t v r hget ht href
    obtain ⟨t0, v0⟩ := p
    cases i with
    | zero =>
      simp only [List.getElem?_cons_zero, Option.some_inj, Prod.mk.injEq] at hget
      obtain ⟨ht0, hv0⟩ := hget
      subst ht0
      subst hv0
      subst ht
      simp only [refAt] at href
      subst href
      simp [computeLabels, labelRule]
    | succ i =>
      simp only [List.getElem?_cons_succ] at hget
      simp only [refAt] at href
      by_cases h0 : t0 = 1
      · simp only [h0, if_true] at href
        simp only [computeLabels, h0, if_true, List.getElem?_cons_succ]
        exact ih (some v0) i t v r hget ht href
      · simp only [h0, if_false] at href
        simp only [computeLabels, h0, if_false, List.getElem?_cons_succ]
        exact ih rv i t v r hget ht href

/-- C1: for every compare trial that has a prior compare reference, the
stored comparison label is 1 if the judged value strictly exceeds the
reference value and 0 otherwise, except that when one value is in the low
sub-range (at most 4) and the other in the high sub-range (at least 5) and
train_long is false, the stored label is the NaN sentinel. -/
theorem comparison_label_policy (trainLong : Bool) (trials : List (Nat × Nat))
    (i t v r : Nat)
    (hget : trials[i]? = some (t, v)) (ht : t = 1)
    (href : refAt trials none i = some r) :
    (computeLabels trainLong trials none)[i]? = some (labelRule trainLong v r) :=
  computeLabels_refAt trainLong trials none i t v r hget ht href

/-- Witness for comparison_label_policy: trial types compare, filler,
filler, compare with values 5, 7, 7, 6; position 3 compares 6 against
reference 5 (same high sub-range) and stores label 1. -/
theorem comparison_label_policy_witness :
    (([(1, 5), (0, 7), (0, 7), (1, 6)] : List (Nat × Nat))[3]? = some (1, 6) ∧
      refAt [(1, 5), (0, 7), (0, 7), (1, 6)] none 3 = some 5) ∧
    (computeLabels false [(1, 5), (0, 7), (0, 7), (1, 6)] none)[3]?
      = some (labelRule false 6 5) :=
  ⟨⟨by decide, by decide⟩,
    comparison_label_policy false [(1, 5), (0, 7), (0, 7), (1, 6)] 3 1 6 5
      (by decide) rfl (by decide)⟩

/-! ### Stimulus sampling (src/define_dataset.py, create_separate_input_data,
the per-sequence generation loop)

The loop draws stimulus values for one sequence from an oracle stream.
For a compare trial: the reference is a fresh draw when this is the first
trial of the first sequence of a block, and the carried judgement value
otherwise; the judgement value is then redrawn while it equals the
reference.  For a filler trial: a value is drawn, and redrawn while it
equals the most recent previous filler, but only when the immediately
preceding trial was a compare trial and some previous filler exists.
The per-sequence variables previousFillerNum and previousTrialtype start
as None. -/

inductive TrialType
  | compare
  | filler
  deriving DecidableEq

/-- Draw from the stream until the value differs from the forbidden one:
the while-loop resampling pattern of the source. -/
def drawNe (forbidden : Nat) : List Nat → Option (Nat × List Nat)
  | [] => none
  | v :: rest => if v = forbidden then drawNe forbidden rest else some (v, rest)

/-- The reference draw of a compare trial: a fresh draw when this is the
first item of the first sequence of a block, the carried judgement value
otherwise. -/
def compareRefDraw (ff isF : Bool) (judgement : Nat) (stream : List Nat) :
    Option (Nat × List Nat) :=
  if ff && isF then
    match stream with
    | [] => none
    | rdraw :: s1 => some (rdraw, s1)
  else some (judgement, stream)

/-- The value draw of a filler trial: redrawn while it equals the most
recent previous filler, but only when the preceding trial was a compare
trial and a previous filler exists. -/
def fillerDraw (prevFiller : Option Nat) (prevIsCompare : Bool)
    (stream : List Nat) : Option (Nat × List Nat) :=
  match prevFiller, prevIsCompare with
  | some p, true => drawNe p stream
  | _, _ =>
    match stream with
    | [] => none
    | v :: s1 => some (v, s1)

def genSeqAux (freshFirst : Bool) :
    Bool → Nat → Option Nat → Bool → List TrialType → List Nat → Option (List Nat)
  | _, _, _, _, [], _ => some []
  | isFirst, judgement, prevFiller, _, TrialType.compare :: rest, stream =>
    match compareRefDraw freshFirst isFirst judgement stream with
    | none => none
    | some (refValue, s1) =>
      match drawNe refValue s1 with
      | none => none
      | some (j, s2) =>
        match genSeqAux freshFirst false j prevFiller true rest s2 with
        | none => none
        | some vs => some (j :: vs)
  | _, judgement, prevFiller, prevIsCompare, TrialType.filler :: rest, stream =>
    match fillerDraw prevFiller prevIsCompare stream with
    | none => none
    | some (f, s2) =>
      match genSeqAux freshFirst false judgement (some f) false rest s2 with
      | none => none
      | some vs => some (f :: vs)

/-- One generated sequence: isFirst starts true (item 0), the previous
filler and previous trial type start as None. -/
def genSeq (ts : List TrialType) (freshFirst : Bool) (carried : Nat)
    (stream : List Nat) : Option (List Nat) :=
  genSeqAux freshFirst true carried none false ts stream

/-- The claimed invariant: no two adjacent positions carry the same value. -/
def adjacentDistinct : List Nat → Bool
  | v1 :: v2 :: rest => v1 != v2 && adjacentDistinct (v2 :: rest)
  | _ => true

/-- The amended invariant: adjacent positions that are BOTH compare trials
carry distinct values. -/
def compareAdjDistinct : List TrialType → List Nat → Bool
  | TrialType.compare :: TrialType.compare :: ts, v1 :: v2 :: vs =>
    v1 != v2 && compareAdjDistinct (TrialType.compare :: ts) (v2 :: vs)
  | _ :: t2 :: ts, _ :: v2 :: vs => compareAdjDistinct (t2 :: ts) (v2 :: vs)
  | _, _ => true

/-- C2 counterexample: the sampler accepts a compare, filler, filler,
compare, filler, filler sequence with values 5, 7, 7, 6, 2, 2: positions
1 and 2 (two adjacent fillers) carry the same value 7, and positions 4 and
5 likewise carry 2; no resampling is triggered because a filler is only
checked against the previous filler when the preceding trial is a compare
trial. -/
theorem adjacent_repeat_counterexample :
    genSeq [TrialType.compare, TrialType.filler, TrialType.filler,
            TrialType.compare, TrialType.filler, TrialType.filler]
        true 1 [3, 5, 7, 7, 6, 2, 2] = some [5, 7, 7, 6, 2, 2] ∧
    adjacentDistinct [5, 7, 7, 6, 2, 2] = false := by
  constructor
  · rfl
  · rfl

lemma drawNe_ne (forbidden : Nat) :
    ∀ (s : List Nat) (v : Nat) (s2 : List Nat),
    drawNe forbidden s = some (v, s2) → v ≠ forbidden := by
  intro s
  induction s with
  | nil =>
    intro v s2 h
    simp [drawNe] at h
  | cons v0 rest ih =>
    intro v s2 h
    by_cases h0 : v0 = forbidden
    · rw [drawNe, if_pos h0] at h
      exact ih v s2 h
    · rw [drawNe, if_neg h0] at h
      simp only [Option.some_inj, Prod.mk.injEq] at h
      obtain ⟨hv, _⟩ := h
      subst hv
      exact h0

lemma compareAdjDistinct_cc (ts : List TrialType) (vs : List Nat) (v1 v2 : Nat) :
    compareAdjDistinct (TrialType.compare :: TrialType.compare :: ts) (v1 :: v2 :: vs)
      = (v1 != v2 && compareAdjDistinct (TrialType.compare :: ts) (v2 :: vs)) := rfl

lemma compareAdjDistinct_cf (ts : List TrialType) (vs : List Nat) (v1 v2 : Nat) :
    compareAdjDistinct (TrialType.compare :: TrialType.filler :: ts) (v1 :: v2 :: vs)
      = compareAdjDistinct (TrialType.filler :: ts) (v2 :: vs) := rfl

lemma compareAdjDistinct_fc (t2 : TrialType) (ts : List TrialType) (vs : List Nat)
    (v1 v2 : Nat) :
    compareAdjDistinct (TrialType.filler :: t2 :: ts) (v1 :: v2 :: vs)
      = compareAdjDistinct (t2 :: ts) (v2 :: vs) := by
  cases t2 <;> rfl

lemma genSeqAux_adj (ts : List TrialType) :
    ∀ (ff isF : Bool) (j : Nat) (pf : Option Nat) (pc : Bool) (s vs : List Nat),
    genSeqAux ff isF j pf pc ts s = some vs →
    vs.length = ts.length ∧
    compareAdjDistinct ts vs = true ∧
    (isF = false → ts.head? = some TrialType.compare → vs.head? ≠ some j) := by
  induction ts with
  | nil =>
    intro ff isF j pf pc s vs h
    simp only [genSeqAux, Option.some_inj] at h
    subst h
    refine ⟨rfl, rfl, ?_⟩
    intro _ hh
    simp at hh
  | cons t rest ih =>
    intro ff isF j pf pc s vs h
    cases t with
    | compare =>
      rcases hsplit : compareRefDraw ff isF j s with _ | ⟨refValue, s1⟩
      · simp [genSeqAux, hsplit] at h
      · simp only [genSeqAux, hsplit] at h
        rcases hdraw : drawNe refValue s1 with _ | ⟨jv, s2⟩
        · simp [hdraw] at h
        · simp only [hdraw] at h
          rcases hrec : genSeqAux ff false jv pf true rest s2 with _ | vs1
          · simp [hrec] at h
          · simp only [hrec, Option.some_inj] at h
            subst h
            obtain ⟨hlen, hadj, hhead⟩ := ih ff false jv pf true s2 vs1 hrec
            refine ⟨by simp [hlen], ?_, ?_⟩
            · cases rest with
              | nil =>
                cases vs1 with
                | nil => rfl
                | cons a b => simp at hlen
              | cons t2 rest2 =>
                cases vs1 with
                | nil => simp at hlen
                | cons v2 vs2 =>
                  cases t2 with
                  | compare =>
                    have hne : jv ≠ v2 := by
                      intro hc
                      apply hhead rfl rfl
                      simp [hc]
                    rw [compareAdjDistinct_cc]
                    simp [hne, hadj]
                  | filler =>
                    rw [compareAdjDistinct_cf]
                    exact hadj
            · intro hisF _
              intro hcontra
              simp only [List.head?_cons, Option.some_inj] at hcontra
              have hrefj : refValue = j := by
                subst hisF
                simp only [compareRefDraw, Bool.and_false, Bool.false_eq_true,
                  if_false, Option.some_inj, Prod.mk.injEq] at hsplit
                exact hsplit.1.symm
              exact drawNe_ne refValue s1 jv s2 hdraw (hcontra.trans hrefj.symm)
    | filler =>
      rcases hsplit : fillerDraw pf pc s with _ | ⟨f, s2⟩
      · simp [genSeqAux, hsplit] at h
      · simp only [genSeqAux, hsplit] at h
        rcases hrec : genSeqAux ff false j (some f) false rest s2 with _ | vs1
        · simp [hrec] at h
        · simp only [hrec, Option.some_inj] at h
          subst h
          obtain ⟨hlen, hadj, _⟩ := ih ff false j (some f) false s2 vs1 hrec
          refine ⟨by simp [hlen], ?_, ?_⟩
          · cases rest with
            | nil =>
              cases vs1 with
              | nil => rfl
              | cons a b => simp at hlen
            | cons t2 rest2 =>
              cases vs1 with
              | nil => simp at hlen
              | cons v2 vs2 =>
                rw [compareAdjDistinct_fc]
                exact hadj
          · intro _ hh
            simp at hh

/-- C2 amended: every sequence the sampler produces satisfies the
compare-compare adjacency invariant: two adjacent positions that are both
compare trials never carry the same stimulus value (the judgement draw is
resampled while it equals the reference, which for a non-initial compare
trial is the previous compare value). -/
theorem compare_adjacent_distinct (ts : List TrialType) (ff : Bool) (carried : Nat)
    (stream vs : List Nat) (h : genSeq ts ff carried stream = some vs) :
    compareAdjDistinct ts vs = true :=
  (genSeqAux_adj ts ff true carried none false stream vs h).2.1

/-- Witness for compare_adjacent_distinct on a concrete
compare, compare, filler sequence. -/
theorem compare_adjacent_distinct_witness :
    genSeq [TrialType.compare, TrialType.compare, TrialType.filler] true 1
        [3, 5, 5, 6, 6] = some [5, 6, 6] ∧
    compareAdjDistinct [TrialType.compare, TrialType.compare, TrialType.filler]
        [5, 6, 6] = true :=
  ⟨rfl, compare_adjacent_distinct
    [TrialType.compare, TrialType.compare, TrialType.filler] true 1
    [3, 5, 5, 6, 6] [5, 6, 6] rfl⟩

/-! ### Recurrent simulation loops (src/magnitude_network.py)

recurrent_train and recurrent_test walk each sequence position by
position: they add the drawn hidden-state noise, step the model, snapshot
the hidden state into latentstate at the second-to-last position, and
accumulate loss, correct count and the qualifying-trials counter only at
positions whose label is not NaN and whose trial type is compare.  Under
the retain-hidden-state policy each sequence starts from latentstate.

The model is an abstract step function (OneStepRNN.forward); hidden-state
vectors are functions from unit index to rational; the per-position noise
vector is part of the prepared position record.  In recurrent_train the
noise is added out of place (hidden = hidden.add(noise)); in recurrent_test
it is added in place (hidden.add_(noise)), and latentstate is a detached
view sharing storage with hidden, so the step right after the snapshot adds
its noise into latentstate as well; the aliased flag tracks whether hidden
currently shares storage with latentstate. -/

abbrev Hid : Type := Nat → ℚ

def addNoise (h ν : Hid) : Hid := fun j => h j + ν j

def zeroHid : Hid := fun _ => 0

lemma addNoise_zero (h : Hid) : addNoise h zeroHid = h := by
  funext j
  simp [addNoise, zeroHid]

/-- A model step: input vector and hidden state to output and new hidden
state. -/
abbrev Step : Type := List ℚ → Hid → ℚ × Hid

/-- One prepared position: concatenated input vector, float label (none
models NaN), trial-type flag, and the noise vector drawn at this step. -/
structure Pos where
  input : List ℚ
  label : Option ℚ
  ttype : ℚ
  noise : Hid

/-- answer_correct for a batch of one: predict 1 when the output exceeds
0.5, else 0; count 1 when the prediction equals the label. -/
def answer_correct (output label : ℚ) : Nat :=
  let pred : ℚ := if output > 1 / 2 then 1 else 0
  if pred = label then 1 else 0

/-- The accrual guard of both loops:
np.isnan(labels[item_idx]) == 0 and trialtype[0, item_idx] == 1. -/
def qualifies (p : Pos) : Bool := p.label.isSome && decide (p.ttype = 1)

structure TrainState where
  hidden : Hid
  latent : Hid
  loss : ℚ
  correct : Nat
  trials : Nat
  allTrials : Nat

/-- The inner recurrence of recurrent_train over one sequence.  The source
compares item_idx with sequenceLength - 2 to take the snapshot; the current
position is second-to-last exactly when one position remains.  The source
guards the three accumulations with a single if; here each accumulation
carries the guard. -/
def trainSeqLoop (step : Step) (crit : ℚ → ℚ → ℚ) : List Pos → TrainState → TrainState
  | [], s => s
  | p :: rest, s =>
    let r := step p.input (addNoise s.hidden p.noise)
    trainSeqLoop step crit rest
      { hidden := r.2,
        latent := if rest.length = 1 then r.2 else s.latent,
        loss := s.loss + (if qualifies p then crit r.1 (p.label.getD 0) else 0),
        correct := s.correct + (if qualifies p then answer_correct r.1 (p.label.getD 0) else 0),
        trials := s.trials + (if qualifies p then 1 else 0),
        allTrials := s.allTrials + 1 }

def trainInitState : TrainState :=
  { hidden := zeroHid, latent := zeroHid, loss := 0, correct := 0,
    trials := 0, allTrials := 0 }

/-- The batch loop of recurrent_train under the retain-hidden-state policy:
each batch starts from the latent state left by the previous one; both
hidden and latentstate start as zero vectors. -/
def trainRun (step : Step) (crit : ℚ → ℚ → ℚ) (seqs : List (List Pos)) : TrainState :=
  seqs.foldl (fun s d => trainSeqLoop step crit d { s with hidden := s.latent })
    trainInitState

/-- The end-of-epoch normalization of recurrent_train:
train_loss /= trials_counter and accuracy = 100 * correct / trials_counter,
with no guard; none models the ZeroDivisionError raised when the counter
is zero. -/
def recurrent_train_epoch (step : Step) (crit : ℚ → ℚ → ℚ)
    (seqs : List (List Pos)) : Option (ℚ × ℚ) :=
  let s := trainRun step crit seqs
  if s.trials = 0 then none
  else some (s.loss / (s.trials : ℚ), 100 * (s.correct : ℚ) / (s.trials : ℚ))

structure TestState where
  hidden : Hid
  latent : Hid
  aliased : Bool
  loss : ℚ
  correct : Nat
  trials : Nat

/-- The inner recurrence of recurrent_test over one sequence.  The in-place
hidden.add_(noise) also updates latentstate while hidden still shares its
storage (aliased); the model step rebinds hidden to a fresh tensor, and the
snapshot re-aliases latentstate with it. -/
def testSeqLoop (step : Step) (crit : ℚ → ℚ → ℚ) : List Pos → TestState → TestState
  | [], s => s
  | p :: rest, s =>
    let latC := if s.aliased then addNoise s.latent p.noise else s.latent
    let r := step p.input (addNoise s.hidden p.noise)
    testSeqLoop step crit rest
      { hidden := r.2,
        latent := if rest.length = 1 then r.2 else latC,
        aliased := rest.length = 1,
        loss := s.loss + (if qualifies p then crit r.1 (p.label.getD 0) else 0),
        correct := s.correct + (if qualifies p then answer_correct r.1 (p.label.getD 0) else 0),
        trials := s.trials + (if qualifies p then 1 else 0) }

def testInitState : TestState :=
  { hidden := zeroHid, latent := zeroHid, aliased := false,
    loss := 0, correct := 0, trials := 0 }

/-- The batch loop of recurrent_test under the retain-hidden-state policy:
hidden = latentstate at the start of each batch (an aliasing assignment). -/
def testRun (step : Step) (crit : ℚ → ℚ → ℚ) (seqs : List (List Pos)) : TestState :=
  seqs.foldl
    (fun s d => testSeqLoop step crit d { s with hidden := s.latent, aliased := true })
    testInitState

/-- The end-of-epoch normalization of recurrent_test:
test_loss /= trials_counter and accuracy = 100 * correct / trials_counter,
again with no guard. -/
def recurrent_test_epoch (step : Step) (crit : ℚ → ℚ → ℚ)
    (seqs : List (List Pos)) : Option (ℚ × ℚ) :=
  let s := testRun step crit seqs
  if s.trials = 0 then none
  else some (s.loss / (s.trials : ℚ), 100 * (s.correct : ℚ) / (s.trials : ℚ))

/-! Specification-side trajectory functions: the hidden states right after
each model step, the outputs at each position, and the hidden state after
the whole sequence. -/

def stepHiddens (step : Step) : List Pos → Hid → List Hid
  | [], _ => []
  | p :: rest, h =>
    let r := step p.input (addNoise h p.noise)
    r.2 :: stepHiddens step rest r.2

def stepOutputs (step : Step) : List Pos → Hid → List ℚ
  | [], _ => []
  | p :: rest, h =>
    let r := step p.input (addNoise h p.noise)
    r.1 :: stepOutputs step rest r.2

def runHidden (step : Step) : List Pos → Hid → Hid
  | [], h => h
  | p :: rest, h => runHidden step rest (step p.input (addNoise h p.noise)).2

/-- The hidden state used to begin sequence k (0-indexed) in the train
batch loop: the latent state after the first k batches. -/
def trainStartHidden (step : Step) (crit : ℚ → ℚ → ℚ)
    (seqs : List (List Pos)) (k : Nat) : Hid :=
  (trainRun step crit (seqs.take k)).latent

/-- The hidden state used to begin sequence k (0-indexed) in the test batch
loop. -/
def testStartHidden (step : Step) (crit : ℚ → ℚ → ℚ)
    (seqs : List (List Pos)) (k : Nat) : Hid :=
  (testRun step crit (seqs.take k)).latent

lemma trainSeqLoop_latent (step : Step) (crit : ℚ → ℚ → ℚ) :
    ∀ (d : List Pos) (s : TrainState) (h0 : Hid), s.hidden = h0 → 2 ≤ d.length →
    (stepHiddens step d h0)[d.length - 2]?
      = some ((trainSeqLoop step crit d s).latent) := by
  intro d
  induction d with
  | nil =>
    intro s h0 hh hlen
    simp at hlen
  | cons p rest ih =>
    intro s h0 hh hlen
    subst hh
    by_cases h1 : rest.length = 1
    · obtain ⟨q, hq⟩ : ∃ q, rest = [q] := by
        cases rest with
        | nil => simp at h1
        | cons q t =>
          cases t with
          | nil => exact ⟨q, rfl⟩
          | cons a b => simp at h1
      subst hq
      simp [trainSeqLoop, stepHiddens]
    · have h2 : 2 ≤ rest.length := by
        simp only [List.length_cons] at hlen
        omega
      have hidx : (p :: rest).length - 2 = (rest.length - 2) + 1 := by
        simp only [List.length_cons]
        omega
      rw [hidx]
      simp only [trainSeqLoop, stepHiddens, List.getElem?_cons_succ, h1, if_false]
      exact ih _ _ rfl h2

lemma testSeqLoop_latent (step : Step) (crit : ℚ → ℚ → ℚ) :
    ∀ (d : List Pos) (s : TestState) (h0 : Hid), s.hidden = h0 → 2 ≤ d.length →
    (∀ p ∈ d, p.noise = zeroHid) →
    (stepHiddens step d h0)[d.length - 2]?
      = some ((testSeqLoop step crit d s).latent) := by
  intro d
  induction d with
  | nil =>
    intro s h0 hh hlen
    simp at hlen
  | cons p rest ih =>
    intro s h0 hh hlen hnz
    subst hh
    by_cases h1 : rest.length = 1
    · obtain ⟨q, hq⟩ : ∃ q, rest = [q] := by
        cases rest with
        | nil => simp at h1
        | cons q t =>
          cases t with
          | nil => exact ⟨q, rfl⟩
          | cons a b => simp at h1
      subst hq
      have hqz : q.noise = zeroHid := hnz q (by simp)
      simp [testSeqLoop, stepHiddens, hqz, addNoise_zero]
    · have h2 : 2 ≤ rest.length := by
        simp only [List.length_cons] at hlen
        omega
      have hidx : (p :: rest).length - 2 = (rest.length - 2) + 1 := by
        simp only [List.length_cons]
        omega
      rw [hidx]
      simp only [testSeqLoop, stepHiddens, List.getElem?_cons_succ, h1, if_false]
      exact ih _ _ rfl h2 (fun q hq => hnz q (List.mem_cons_of_mem p hq))

lemma trainRun_take_succ (step : Step) (crit : ℚ → ℚ → ℚ)
    (seqs : List (List Pos)) (k : Nat) (d : List Pos) (hk : seqs[k]? = some d) :
    trainRun step crit (seqs.take (k + 1))
      = trainSeqLoop step crit d
          { trainRun step crit (seqs.take k) with
            hidden := (trainRun step crit (seqs.take k)).latent } := by
  unfold trainRun
  rw [List.take_succ, hk]
  simp [List.foldl_append]

lemma testRun_take_succ (step : Step) (crit : ℚ → ℚ → ℚ)
    (seqs : List (List Pos)) (k : Nat) (d : List Pos) (hk : seqs[k]? = some d) :
    testRun step crit (seqs.take (k + 1))
      = testSeqLoop step crit d
          { testRun step crit (seqs.take k) with
            hidden := (testRun step crit (seqs.take k)).latent,
            aliased := true } := by
  unfold testRun
  rw [List.take_succ, hk]
  simp [List.foldl_append]

/-- C3: under the retain-hidden-state policy with zero injected noise, the
hidden state used to begin sequence k+1 equals the hidden-state snapshot
taken right after the model step at the second-to-last position of
sequence k, in both the train loop and the test loop. -/
theorem hidden_state_carry_over (step : Step) (crit : ℚ → ℚ → ℚ)
    (seqs : List (List Pos)) (k : Nat) (d : List Pos)
    (hk : seqs[k]? = some d) (hlen : 2 ≤ d.length)
    (hnz : ∀ q ∈ seqs, ∀ p ∈ q, p.noise = zeroHid) :
    (stepHiddens step d (trainStartHidden step crit seqs k))[d.length - 2]?
        = some (trainStartHidden step crit seqs (k + 1)) ∧
    (stepHiddens step d (testStartHidden step crit seqs k))[d.length - 2]?
        = some (testStartHidden step crit seqs (k + 1)) := by
  constructor
  · unfold trainStartHidden
    rw [trainRun_take_succ step crit seqs k d hk]
    exact trainSeqLoop_latent step crit d _ _ rfl hlen
  · unfold testStartHidden
    rw [testRun_take_succ step crit seqs k d hk]
    exact testSeqLoop_latent step crit d _ _ rfl hlen
      (hnz d (List.getElem?_mem hk))

/-- A fixed position and a fixed model step used to instantiate the
universally quantified loop theorems. -/
def witPos : Pos := { input := [], label := some 1, ttype := 1, noise := zeroHid }

def constStep : Step := fun _ h => (1, h)

def zeroCrit : ℚ → ℚ → ℚ := fun _ _ => 0

/-- Witness for hidden_state_carry_over with one two-position sequence. -/
theorem hidden_state_carry_over_witness :
    (([[witPos, witPos]] : List (List Pos))[0]? = some [witPos, witPos] ∧
      2 ≤ ([witPos, witPos] : List Pos).length ∧
      (∀ q ∈ ([[witPos, witPos]] : List (List Pos)), ∀ p ∈ q, p.noise = zeroHid)) ∧
    ((stepHiddens constStep [witPos, witPos]
        (trainStartHidden constStep zeroCrit [[witPos, witPos]] 0))[
          ([witPos, witPos] : List Pos).length - 2]?
        = some (trainStartHidden constStep zeroCrit [[witPos, witPos]] 1) ∧
      (stepHiddens constStep [witPos, witPos]
        (testStartHidden constStep zeroCrit [[witPos, witPos]] 0))[
          ([witPos, witPos] : List Pos).length - 2]?
        = some (testStartHidden constStep zeroCrit [[witPos, witPos]] 1)) := by
  have hnz : ∀ q ∈ ([[witPos, witPos]] : List (List Pos)), ∀ p ∈ q, p.noise = zeroHid := by
    intro q hq p hp
    simp only [List.mem_singleton] at hq
    subst hq
    simp only [List.mem_cons, List.not_mem_nil, or_false] at hp
    rcases hp with rfl | rfl <;> rfl
  exact ⟨⟨rfl, by decide, hnz⟩,
    hidden_state_carry_over constStep zeroCrit [[witPos, witPos]] 0 [witPos, witPos]
      rfl (by decide) hnz⟩

/-! Specification-side accrual totals for the train and test loops. -/

def qualCount (d : List Pos) : Nat := d.countP (fun p => qualifies p)

def qualCorrectTotal (step : Step) (d : List Pos) (h : Hid) : Nat :=
  ((d.zip (stepOutputs step d h)).map
    (fun q => if qualifies q.1 then answer_correct q.2 (q.1.label.getD 0) else 0)).sum

def qualLossTotal (step : Step) (crit : ℚ → ℚ → ℚ) (d : List Pos) (h : Hid) : ℚ :=
  ((d.zip (stepOutputs step d h)).map
    (fun q => if qualifies q.1 then crit q.2 (q.1.label.getD 0) else 0)).sum

lemma trainSeqLoop_fields (step : Step) (crit : ℚ → ℚ → ℚ) :
    ∀ (d : List Pos) (s : TrainState),
    (trainSeqLoop step crit d s).trials = s.trials + qualCount d ∧
    (trainSeqLoop step crit d s).correct = s.correct + qualCorrectTotal step d s.hidden ∧
    (trainSeqLoop step crit d s).loss = s.loss + qualLossTotal step crit d s.hidden ∧
    (trainSeqLoop step crit d s).hidden = runHidden step d s.hidden ∧
    (trainSeqLoop step crit d s).allTrials = s.allTrials + d.length := by
  intro d
  induction d with
  | nil =>
    intro s
    simp [trainSeqLoop, qualCount, qualCorrectTotal, qualLossTotal, runHidden,
      stepOutputs]
  | cons p rest ih =>
    intro s
    obtain ⟨iht, ihc, ihl, ihh, iha⟩ := ih
      { hidden := (step p.input (addNoise s.hidden p.noise)).2,
        latent := if rest.length = 1 then (step p.input (addNoise s.hidden p.noise)).2
                  else s.latent,
        loss := s.loss + (if qualifies p then
          crit (step p.input (addNoise s.hidden p.noise)).1 (p.label.getD 0) else 0),
        correct := s.correct + (if qualifies p then
          answer_correct (step p.input (addNoise s.hidden p.noise)).1 (p.label.getD 0)
          else 0),
        trials := s.trials + (if qualifies p then 1 else 0),
        allTrials := s.allTrials + 1 }
    refine ⟨?_, ?_, ?_, ?_, ?_⟩
    · rw [trainSeqLoop, iht]
      simp only [qualCount, List.countP_cons]
      by_cases hq : qualifies p
      · simp [hq, qualCount]
        omega
      · simp [hq, qualCount]
    · rw [trainSeqLoop, ihc]
      simp only [qualCorrectTotal, stepOutputs, List.zip_cons_cons, List.map_cons,
        List.sum_cons]
      omega
    · rw [trainSeqLoop, ihl]
      simp only [qualLossTotal, stepOutputs, List.zip_cons_cons, List.map_cons,
        List.sum_cons]
      ring
    · rw [trainSeqLoop, ihh]
      simp [runHidden]
    · rw [trainSeqLoop, iha]
      simp only [List.length_cons]
      omega

lemma testSeqLoop_fields (step : Step) (crit : ℚ → ℚ → ℚ) :
    ∀ (d : List Pos) (s : TestState),
    (testSeqLoop step crit d s).trials = s.trials + qualCount d ∧
    (testSeqLoop step crit d s).correct = s.correct + qualCorrectTotal step d s.hidden ∧
    (testSeqLoop step crit d s).loss = s.loss + qualLossTotal step crit d s.hidden ∧
    (testSeqLoop step crit d s).hidden = runHidden step d s.hidden := by
  intro d
  induction d with
  | nil =>
    intro s
    simp [testSeqLoop, qualCount, qualCorrectTotal, qualLossTotal, runHidden,
      stepOutputs]
  | cons p rest ih =>
    intro s
    obtain ⟨iht, ihc, ihl, ihh⟩ := ih
      { hidden := (step p.input (addNoise s.hidden p.noise)).2,
        latent := if rest.length = 1 then (step p.input (addNoise s.hidden p.noise)).2
                  else (if s.aliased then addNoise s.latent p.noise else s.latent),
        aliased := rest.length = 1,
        loss := s.loss + (if qualifies p then
          crit (step p.input (addNoise s.hidden p.noise)).1 (p.label.getD 0) else 0),
        correct := s.correct + (if qualifies p then
          answer_correct (step p.input (addNoise s.hidden p.noise)).1 (p.label.getD 0)
          else 0),
        trials := s.trials + (if qualifies p then 1 else 0) }
    refine ⟨?_, ?_, ?_, ?_⟩
    · rw [testSeqLoop, iht]
      simp only [qualCount, List.countP_cons]
      by_cases hq : qualifies p
      · simp [hq, qualCount]
        omega
      · simp [hq, qualCount]
    · rw [testSeqLoop, ihc]
      simp only [qualCorrectTotal, stepOutputs, List.zip_cons_cons, List.map_cons,
        List.sum_cons]
      omega
    · rw [testSeqLoop, ihl]
      simp only [qualLossTotal, stepOutputs, List.zip_cons_cons, List.map_cons,
        List.sum_cons]
      ring
    · rw [testSeqLoop, ihh]
      simp [runHidden]

/-- C4: in both loops a position contributes to the accumulated loss, the
correct counter and the qualifying-trials counter exactly when its trial
type is compare and its label is not NaN; every position is stepped through
the model regardless (the final hidden state folds over all positions, and
the all-trials counter counts every position); and at a qualifying position
the prediction is 1 exactly when the output exceeds one half, counted
correct exactly when the prediction equals the label. -/
theorem loss_accrual_policy (step : Step) (crit : ℚ → ℚ → ℚ) (d : List Pos)
    (s : TrainState) (t : TestState) :
    ((trainSeqLoop step crit d s).trials = s.trials + qualCount d ∧
     (trainSeqLoop step crit d s).correct = s.correct + qualCorrectTotal step d s.hidden ∧
     (trainSeqLoop step crit d s).loss = s.loss + qualLossTotal step crit d s.hidden ∧
     (trainSeqLoop step crit d s).hidden = runHidden step d s.hidden ∧
     (trainSeqLoop step crit d s).allTrials = s.allTrials + d.length) ∧
    ((testSeqLoop step crit d t).trials = t.trials + qualCount d ∧
     (testSeqLoop step crit d t).correct = t.correct + qualCorrectTotal step d t.hidden ∧
     (testSeqLoop step crit d t).loss = t.loss + qualLossTotal step crit d t.hidden ∧
     (testSeqLoop step crit d t).hidden = runHidden step d t.hidden) ∧
    (∀ output label : ℚ, label = 0 ∨ label = 1 →
      (answer_correct output label = 1 ↔ (label = 1 ↔ output > 1 / 2))) := by
  refine ⟨trainSeqLoop_fields step crit d s, testSeqLoop_fields step crit d t, ?_⟩
  intro output label hl
  rcases hl with rfl | rfl <;> by_cases h : output > 1 / 2 <;>
    simp [answer_correct, h]

/-- Witness for loss_accrual_policy on a one-position sequence. -/
theorem loss_accrual_policy_witness :
    ((trainSeqLoop constStep zeroCrit [witPos] trainInitState).trials
        = trainInitState.trials + qualCount [witPos] ∧
     (trainSeqLoop constStep zeroCrit [witPos] trainInitState).correct
        = trainInitState.correct + qualCorrectTotal constStep [witPos] trainInitState.hidden ∧
     (trainSeqLoop constStep zeroCrit [witPos] trainInitState).loss
        = trainInitState.loss + qualLossTotal constStep zeroCrit [witPos] trainInitState.hidden ∧
     (trainSeqLoop constStep zeroCrit [witPos] trainInitState).hidden
        = runHidden constStep [witPos] trainInitState.hidden ∧
     (trainSeqLoop constStep zeroCrit [witPos] trainInitState).allTrials
        = trainInitState.allTrials + ([witPos] : List Pos).length) ∧
    ((testSeqLoop constStep zeroCrit [witPos] testInitState).trials
        = testInitState.trials + qualCount [witPos] ∧
     (testSeqLoop constStep zeroCrit [witPos] testInitState).correct
        = testInitState.correct + qualCorrectTotal constStep [witPos] testInitState.hidden ∧
     (testSeqLoop constStep zeroCrit [witPos] testInitState).loss
        = testInitState.loss + qualLossTotal constStep zeroCrit [witPos] testInitState.hidden ∧
     (testSeqLoop constStep zeroCrit [witPos] testInitState).hidden
        = runHidden constStep [witPos] testInitState.hidden) ∧
    (∀ output label : ℚ, label = 0 ∨ label = 1 →
      (answer_correct output label = 1 ↔ (label = 1 ↔ output > 1 / 2))) :=
  loss_accrual_policy constStep zeroCrit [witPos] trainInitState testInitState

/-- C8 counterexample: an epoch whose single sequence holds one filler
trial has a zero qualifying-trials counter, and the final normalization
reaches the division-by-zero fault (none) in both loops: no guard
substitutes a safe default. -/
theorem zero_qualifying_trials_fault :
    recurrent_train_epoch constStep zeroCrit
        [[{ input := [], label := some 1, ttype := 0, noise := zeroHid }]] = none ∧
    recurrent_test_epoch constStep zeroCrit
        [[{ input := [], label := some 1, ttype := 0, noise := zeroHid }]] = none := by
  constructor
  · rfl
  · rfl

/-- C8 amended: the final normalization of loss and correct count by the
qualifying-trials counter is not guarded: in both loops it reaches the
division-by-zero fault exactly when the counter is zero for the epoch, and
is safe otherwise. -/
theorem loss_normalization_unguarded (step : Step) (crit : ℚ → ℚ → ℚ)
    (seqs : List (List Pos)) :
    (recurrent_train_epoch step crit seqs = none
        ↔ (trainRun step crit seqs).trials = 0) ∧
    (recurrent_test_epoch step crit seqs = none
        ↔ (testRun step crit seqs).trials = 0) := by
  constructor
  · unfold recurrent_train_epoch
    by_cases h : (trainRun step crit seqs).trials = 0 <;> simp [h]
  · unfold recurrent_test_epoch
    by_cases h : (testRun step crit seqs).trials = 0 <;> simp [h]

/-! ### Per-position input construction (src/magnitude_network.py)

recurrent_train (lines 131-148), recurrent_test (lines 241-248),
recurrent_lesion_test (lines 377-385) and get_activations (lines 681-690)
each build, for every position, the concatenated input
[stimulus, context, trial-type flag], zeroing the context vector on
filler trials (trial-type flag 0).  The train loop additionally lesions
the stimulus of some compare trials: alternate compare trials when
retraining the decoder, otherwise compare trials drawn with probability
train_lesion_freq (the draws are an oracle list of booleans, one per
position); filler trials are never lesioned. -/

def buildTrainInputs (retrainDecoder : Bool) :
    List (List ℚ) → List (List ℚ) → List ℚ → List Bool → Bool → List (List ℚ)
  | stim :: ss, ctx :: cs, t :: ts, les :: ls, alt =>
    (if t = 0 then
      stim ++ List.replicate ctx.length (0 : ℚ) ++ [t]
    else
      (if (if retrainDecoder then alt else les) then
        List.replicate stim.length (0 : ℚ)
      else stim) ++ ctx ++ [t])
      :: buildTrainInputs retrainDecoder ss cs ts ls (!alt)
  | _, _, _, _, _ => []

def buildTestInputs : List (List ℚ) → List (List ℚ) → List ℚ → List (List ℚ)
  | stim :: ss, ctx :: cs, t :: ts =>
    (stim ++ (if t = 0 then List.replicate ctx.length (0 : ℚ) else ctx) ++ [t])
      :: buildTestInputs ss cs ts
  | _, _, _ => []

def buildLesionTestInputs : List (List ℚ) → List (List ℚ) → List ℚ → List (List ℚ)
  | stim :: ss, ctx :: cs, t :: ts =>
    (stim ++ (if t = 0 then List.replicate ctx.length (0 : ℚ) else ctx) ++ [t])
      :: buildLesionTestInputs ss cs ts
  | _, _, _ => []

def buildActivationInputs : List (List ℚ) → List (List ℚ) → List ℚ → List (List ℚ)
  | stim :: ss, ctx :: cs, t :: ts =>
    (stim ++ (if t = 0 then List.replicate ctx.length (0 : ℚ) else ctx) ++ [t])
      :: buildActivationInputs ss cs ts
  | _, _, _ => []

lemma buildTestInputs_filler :
    ∀ (i : Nat) (stims ctxs : List (List ℚ)) (ts : List ℚ) (st cx : List ℚ),
    stims[i]? = some st → ctxs[i]? = some cx → ts[i]? = some 0 →
    (buildTestInputs stims ctxs ts)[i]?
      = some (st ++ List.replicate cx.length (0 : ℚ) ++ [0]) := by
  intro i
  induction i with
  | zero =>
    intro stims ctxs ts st cx hs hc ht
    rcases stims with _ | ⟨s, ss⟩
    · simp at hs
    rcases ctxs with _ | ⟨c, cs⟩
    · simp at hc
    rcases ts with _ | ⟨t, tts⟩
    · simp at ht
    simp only [List.getElem?_cons_zero, Option.some_inj] at hs hc ht
    subst hs
    subst hc
    subst ht
    simp [buildTestInputs]
  | succ i ih =>
    intro stims ctxs ts st cx hs hc ht
    rcases stims with _ | ⟨s, ss⟩
    · simp at hs
    rcases ctxs with _ | ⟨c, cs⟩
    · simp at hc
    rcases ts with _ | ⟨t, tts⟩
    · simp at ht
    simp only [List.getElem?_cons_succ] at hs hc ht
    simp only [buildTestInputs, List.getElem?_cons_succ]
    exact ih ss cs tts st cx hs hc ht

lemma buildLesionTestInputs_filler :
    ∀ (i : Nat) (stims ctxs : List (List ℚ)) (ts : List ℚ) (st cx : List ℚ),
    stims[i]? = some st → ctxs[i]? = some cx → ts[i]? = some 0 →
    (buildLesionTestInputs stims ctxs ts)[i]?
      = some (st ++ List.replicate cx.length (0 : ℚ) ++ [0]) := by
  intro i
  induction i with
  | zero =>
    intro stims ctxs ts st cx hs hc ht
    rcases stims with _ | ⟨s, ss⟩
    · simp at hs
    rcases ctxs with _ | ⟨c, cs⟩
    · simp at hc
    rcases ts with _ | ⟨t, tts⟩
    · simp at ht
    simp only [List.getElem?_cons_zero, Option.some_inj] at hs hc ht
    subst hs
    subst hc
    subst ht
    simp [buildLesionTestInputs]
  | succ i ih =>
    intro stims ctxs ts st cx hs hc ht
    rcases stims with _ | ⟨s, ss⟩
    · simp at hs
    rcases ctxs with _ | ⟨c, cs⟩
    · simp at hc
    rcases ts with _ | ⟨t, tts⟩
    · simp at ht
    simp only [List.getElem?_cons_succ] at hs hc ht
    simp only [buildLesionTestInputs, List.getElem?_cons_succ]
    exact ih ss cs tts st cx hs hc ht

lemma buildActivationInputs_filler :
    ∀ (i : Nat) (stims ctxs : List (List ℚ)) (ts : List ℚ) (st cx : List ℚ),
    stims[i]? = some st → ctxs[i]? = some cx → ts[i]? = some 0 →
    (buildActivationInputs stims ctxs ts)[i]?
      = some (st ++ List.replicate cx.length (0 : ℚ) ++ [0]) := by
  intro i
  induction i with
  | zero =>
    intro stims ctxs ts st cx hs hc ht
    rcases stims with _ | ⟨s, ss⟩
    · simp at hs
    rcases ctxs with _ | ⟨c, cs⟩
    · simp at hc
    rcases ts with _ | ⟨t, tts⟩
    · simp at ht
    simp only [List.getElem?_cons_zero, Option.some_inj] at hs hc ht
    subst hs
    subst hc
    subst ht
    simp [buildActivationInputs]
  | succ i ih =>
    intro stims ctxs ts st cx hs hc ht
    rcases stims with _ | ⟨s, ss⟩
    · simp at hs
    rcases ctxs with _ | ⟨c, cs⟩
    · simp at hc
    rcases ts with _ | ⟨t, tts⟩
    · simp at ht
    simp only [List.getElem?_cons_succ] at hs hc ht
    simp only [buildActivationInputs, List.getElem?_cons_succ]
    exact ih ss cs tts st cx hs hc ht

lemma buildTrainInputs_filler :
    ∀ (i : Nat) (retrain : Bool) (stims ctxs : List (List ℚ)) (ts : List ℚ)
      (les : List Bool) (alt : Bool) (st cx : List ℚ) (b : Bool),
    stims[i]? = some st → ctxs[i]? = some cx → ts[i]? = some 0 →
    les[i]? = some b →
    (buildTrainInputs retrain stims ctxs ts les alt)[i]?
      = some (st ++ List.replicate cx.length (0 : ℚ) ++ [0]) := by
  intro i
  induction i with
  | zero =>
    intro retrain stims ctxs ts les alt st cx b hs hc ht hl
    rcases stims with _ | ⟨s, ss⟩
    · simp at hs
    rcases ctxs with _ | ⟨c, cs⟩
    · simp at hc
    rcases ts with _ | ⟨t, tts⟩
    · simp at ht
    rcases les with _ | ⟨l, ls⟩
    · simp at hl
    simp only [List.getElem?_cons_zero, Option.some_inj] at hs hc ht hl
    subst hs
    subst hc
    subst ht
    simp [buildTrainInputs]
  | succ i ih =>
    intro retrain stims ctxs ts les alt st cx b hs hc ht hl
    rcases stims with _ | ⟨s, ss⟩
    · simp at hs
    rcases ctxs with _ | ⟨c, cs⟩
    · simp at hc
    rcases ts with _ | ⟨t, tts⟩
    · simp at ht
    rcases les with _ | ⟨l, ls⟩
    · simp at hl
    simp only [List.getElem?_cons_succ] at hs hc ht hl
    simp only [buildTrainInputs, List.getElem?_cons_succ]
    exact ih retrain ss cs tts ls (!alt) st cx b hs hc ht hl

/-- C5: at every filler position (trial-type flag 0) the context portion of
the concatenated input vector is all zeros, whatever context-input list
(any labeling policy) the dataset supplied, in the train loop, the test
loop, the lesion-evaluation loop and activation extraction; the stimulus
portion is the unmodified stimulus and the flag bit is 0. -/
theorem filler_context_zeroed
    (stims ctxs : List (List ℚ)) (ts : List ℚ) (les : List Bool)
    (retrain alt : Bool) (i : Nat) (st cx : List ℚ) (b : Bool)
    (hs : stims[i]? = some st) (hc : ctxs[i]? = some cx)
    (ht : ts[i]? = some 0) (hl : les[i]? = some b) :
    (buildTrainInputs retrain stims ctxs ts les alt)[i]?
      = some (st ++ List.replicate cx.length (0 : ℚ) ++ [0]) ∧
    (buildTestInputs stims ctxs ts)[i]?
      = some (st ++ List.replicate cx.length (0 : ℚ) ++ [0]) ∧
    (buildLesionTestInputs stims ctxs ts)[i]?
      = some (st ++ List.replicate cx.length (0 : ℚ) ++ [0]) ∧
    (buildActivationInputs stims ctxs ts)[i]?
      = some (st ++ List.replicate cx.length (0 : ℚ) ++ [0]) :=
  ⟨buildTrainInputs_filler i retrain stims ctxs ts les alt st cx b hs hc ht hl,
   buildTestInputs_filler i stims ctxs ts st cx hs hc ht,
   buildLesionTestInputs_filler i stims ctxs ts st cx hs hc ht,
   buildActivationInputs_filler i stims ctxs ts st cx hs hc ht⟩

/-- Witness for filler_context_zeroed at position 0 of a one-position
filler batch with a nonzero context input. -/
theorem filler_context_zeroed_witness :
    ((([[ (1 : ℚ), 0 ]] : List (List ℚ))[0]? = some [1, 0] ∧
      (([[ (0 : ℚ), 1 ]] : List (List ℚ))[0]? = some [0, 1]) ∧
      (([ (0 : ℚ) ] : List ℚ)[0]? = some 0) ∧
      (([ true ] : List Bool)[0]? = some true))) ∧
    ((buildTrainInputs false [[1, 0]] [[0, 1]] [0] [true] true)[0]?
      = some ([1, 0] ++ List.replicate ([ (0 : ℚ), 1 ] : List ℚ).length (0 : ℚ) ++ [0]) ∧
     (buildTestInputs [[1, 0]] [[0, 1]] [0])[0]?
      = some ([1, 0] ++ List.replicate ([ (0 : ℚ), 1 ] : List ℚ).length (0 : ℚ) ++ [0]) ∧
     (buildLesionTestInputs [[1, 0]] [[0, 1]] [0])[0]?
      = some ([1, 0] ++ List.replicate ([ (0 : ℚ), 1 ] : List ℚ).length (0 : ℚ) ++ [0]) ∧
     (buildActivationInputs [[1, 0]] [[0, 1]] [0])[0]?
      = some ([1, 0] ++ List.replicate ([ (0 : ℚ), 1 ] : List ℚ).length (0 : ℚ) ++ [0])) :=
  ⟨⟨rfl, rfl, rfl, rfl⟩,
    filler_context_zeroed [[1, 0]] [[0, 1]] [0] [true] false true 0 [1, 0] [0, 1] true
      rfl rfl rfl rfl⟩

/-! ### Lesion application (src/magnitude_network.py, recurrent_lesion_test,
lines 420-428)

For each position up to the assessment index, a position flagged 1 in the
lesion record has a slice of its input vector replaced by zeros in place:
positions 0 to TOTALMAXNUM (the stimulus) when whichLesion is the string
number, positions TOTALMAXNUM to TOTALMAXNUM + NCONTEXTS (the context)
otherwise. -/

/-- Slice assignment v[a:b] = zeros with python slice clamping. -/
def zeroSlice (v : List ℚ) (a b : Nat) : List ℚ :=
  v.take a ++ List.replicate (min b v.length - a) (0 : ℚ) ++ v.drop b

def lesion_one_input (whichLesion : String) (v : List ℚ) : List ℚ :=
  if whichLesion = "number" then zeroSlice v 0 TOTALMAXNUM
  else zeroSlice v TOTALMAXNUM (TOTALMAXNUM + NCONTEXTS)

def apply_lesion_record (whichLesion : String) : List ℚ → List (List ℚ) → List (List ℚ)
  | f :: fs, v :: vs =>
    (if f = 1 then lesion_one_input whichLesion v else v)
      :: apply_lesion_record whichLesion fs vs
  | _, _ => []

lemma apply_lesion_record_get (wl : String) :
    ∀ (i : Nat) (flags : List ℚ) (vs : List (List ℚ)) (f : ℚ) (v : List ℚ),
    flags[i]? = some f → vs[i]? = some v →
    (apply_lesion_record wl flags vs)[i]?
      = some (if f = 1 then lesion_one_input wl v else v) := by
  intro i
  induction i with
  | zero =>
    intro flags vs f v hf hv
    rcases flags with _ | ⟨f0, fs⟩
    · simp at hf
    rcases vs with _ | ⟨v0, vv⟩
    · simp at hv
    simp only [List.getElem?_cons_zero, Option.some_inj] at hf hv
    subst hf
    subst hv
    simp [apply_lesion_record]
  | succ i ih =>
    intro flags vs f v hf hv
    rcases flags with _ | ⟨f0, fs⟩
    · simp at hf
    rcases vs with _ | ⟨v0, vv⟩
    · simp at hv
    simp only [List.getElem?_cons_succ] at hf hv
    simp only [apply_lesion_record, List.getElem?_cons_succ]
    exact ih fs vv f v hf hv

lemma lesion_one_input_number (v : List ℚ)
    (hlen : TOTALMAXNUM + NCONTEXTS ≤ v.length) :
    lesion_one_input "number" v
      = List.replicate TOTALMAXNUM (0 : ℚ) ++ v.drop TOTALMAXNUM := by
  unfold lesion_one_input zeroSlice
  rw [if_pos rfl]
  simp only [TOTALMAXNUM, NCONTEXTS] at hlen ⊢
  rw [List.take_zero, Nat.min_eq_left (by omega)]
  simp

lemma lesion_one_input_context (wl : String) (hwl : wl ≠ "number") (v : List ℚ)
    (hlen : TOTALMAXNUM + NCONTEXTS ≤ v.length) :
    lesion_one_input wl v
      = v.take TOTALMAXNUM ++ List.replicate NCONTEXTS (0 : ℚ)
          ++ v.drop (TOTALMAXNUM + NCONTEXTS) := by
  unfold lesion_one_input zeroSlice
  rw [if_neg hwl]
  simp only [TOTALMAXNUM, NCONTEXTS] at hlen ⊢
  rw [Nat.min_eq_left (by omega)]

/-- C6: in lesion evaluation, a position flagged 1 in the lesion record has
its stimulus slice (the first TOTALMAXNUM entries) replaced by zeros with
the rest unchanged when whichLesion is the string number, and otherwise its
context slice (the NCONTEXTS entries after the stimulus slice) replaced by
zeros with the rest unchanged; an unflagged position is fed to the model
unmodified. -/
theorem lesion_slice_application (wl : String) (flags : List ℚ)
    (vs : List (List ℚ)) (i : Nat) (f : ℚ) (v : List ℚ)
    (hf : flags[i]? = some f) (hv : vs[i]? = some v)
    (hlen : TOTALMAXNUM + NCONTEXTS ≤ v.length) :
    (f = 1 → wl = "number" →
      (apply_lesion_record wl flags vs)[i]?
        = some (List.replicate TOTALMAXNUM (0 : ℚ) ++ v.drop TOTALMAXNUM)) ∧
    (f = 1 → wl ≠ "number" →
      (apply_lesion_record wl flags vs)[i]?
        = some (v.take TOTALMAXNUM ++ List.replicate NCONTEXTS (0 : ℚ)
            ++ v.drop (TOTALMAXNUM + NCONTEXTS))) ∧
    (f ≠ 1 → (apply_lesion_record wl flags vs)[i]? = some v) := by
  have hbase := apply_lesion_record_get wl i flags vs f v hf hv
  refine ⟨?_, ?_, ?_⟩
  · intro hf1 hwl
    subst hwl
    rw [hbase, if_pos hf1, lesion_one_input_number v hlen]
  · intro hf1 hwl
    rw [hbase, if_pos hf1, lesion_one_input_context wl hwl v hlen]
  · intro hf1
    rw [hbase, if_neg hf1]

/-- Witness for lesion_slice_application on a flagged 11-entry vector. -/
theorem lesion_slice_application_witness :
    ((([ (1 : ℚ) ] : List ℚ)[0]? = some 1 ∧
      (([[ (1 : ℚ), 0, 0, 0, 0, 0, 0, 0, 1, 0, 1 ]] : List (List ℚ))[0]?
        = some [1, 0, 0, 0, 0, 0, 0, 0, 1, 0, 1]) ∧
      TOTALMAXNUM + NCONTEXTS
        ≤ ([ (1 : ℚ), 0, 0, 0, 0, 0, 0, 0, 1, 0, 1 ] : List ℚ).length)) ∧
    (((1 : ℚ) = 1 → "context" = "number" →
      (apply_lesion_record "context" [1] [[1, 0, 0, 0, 0, 0, 0, 0, 1, 0, 1]])[0]?
        = some (List.replicate TOTALMAXNUM (0 : ℚ)
            ++ ([ (1 : ℚ), 0, 0, 0, 0, 0, 0, 0, 1, 0, 1 ] : List ℚ).drop TOTALMAXNUM)) ∧
     ((1 : ℚ) = 1 → "context" ≠ "number" →
      (apply_lesion_record "context" [1] [[1, 0, 0, 0, 0, 0, 0, 0, 1, 0, 1]])[0]?
        = some (([ (1 : ℚ), 0, 0, 0, 0, 0, 0, 0, 1, 0, 1 ] : List ℚ).take TOTALMAXNUM
            ++ List.replicate NCONTEXTS (0 : ℚ)
            ++ ([ (1 : ℚ), 0, 0, 0, 0, 0, 0, 0, 1, 0, 1 ] : List ℚ).drop
                 (TOTALMAXNUM + NCONTEXTS))) ∧
     ((1 : ℚ) ≠ 1 →
      (apply_lesion_record "context" [1] [[1, 0, 0, 0, 0, 0, 0, 0, 1, 0, 1]])[0]?
        = some [1, 0, 0, 0, 0, 0, 0, 0, 1, 0, 1])) :=
  ⟨⟨rfl, rfl, by decide⟩,
    lesion_slice_application "context" [1] [[1, 0, 0, 0, 0, 0, 0, 0, 1, 0, 1]] 0 1
      [1, 0, 0, 0, 0, 0, 0, 0, 1, 0, 1] rfl rfl (by decide)⟩

/-! ### Phase index reshaping (src/define_dataset.py,
create_separate_input_data, lines 240-254)

Each phase allocates per-block arrays with int(N/Mblocks) sequences per
block and then reshapes np.asarray(range(N)) to shape
(Mblocks, int(N/Mblocks), 1).  numpy reshape raises ValueError (modelled
as none) unless the element counts match; the reshape runs before any
sequence is generated. -/

def per_block_count (n m : Nat) : Nat := n / m

def chunk_exact : Nat → Nat → List Nat → List (List Nat)
  | 0, _, _ => []
  | m + 1, k, l => l.take k :: chunk_exact m k (l.drop k)

def reshape_phase_indices (n m : Nat) : Option (List (List Nat)) :=
  if m * per_block_count n m = n then
    some (chunk_exact m (per_block_count n m) (List.range n))
  else none

/-- C7: for every phase, when the requested sequence count is not evenly
divisible by the number of blocks, the index reshape fails (raises) before
any data is generated, so the sample count is never silently truncated;
when it is divisible, the reshape succeeds. -/
theorem phase_indices_fail_fast (n m : Nat) (hm : 0 < m) :
    (¬ m ∣ n → reshape_phase_indices n m = none) ∧
    (m ∣ n → reshape_phase_indices n m
        = some (chunk_exact m (per_block_count n m) (List.range n))) := by
  constructor
  · intro hnd
    unfold reshape_phase_indices
    rw [if_neg]
    intro hEq
    exact hnd ⟨n / m, hEq.symm⟩
  · intro hd
    unfold reshape_phase_indices
    rw [if_pos (show m * per_block_count n m = n from Nat.mul_div_cancel' hd)]

/-- Witness for phase_indices_fail_fast at N = 100, Mblocks = 24. -/
theorem phase_indices_fail_fast_witness :
    0 < 24 ∧
    ((¬ (24 ∣ 100) → reshape_phase_indices 100 24 = none) ∧
     (24 ∣ 100 → reshape_phase_indices 100 24
        = some (chunk_exact 24 (per_block_count 100 24) (List.range 100)))) :=
  ⟨by decide, phase_indices_fail_fast 100 24 (by decide)⟩

/-! ### Hand-coded baselines (src/magnitude_network.py,
get_local_model_response / get_global_model_response)

localmedians is ordered [full, low, high], inherited from the original
three-context design; this repository's contexts are 1 = low range,
2 = high range (src/define_dataset.py, turn_index_to_context and the block
assignment), and src/constants.py carries the comment that the means are
not yet adjusted for these contexts.  Python list indexing at context - 1
is modelled by getD (the call sites pass context 1 or 2 only). -/

def get_local_model_response (number : ℚ) (context : Nat) (label : ℚ) : Nat :=
  let localmedians : List ℚ := [CONTEXT_FULL_MEAN, CONTEXT_LOW_MEAN, CONTEXT_HIGH_MEAN]
  let response : Nat := if number > localmedians.getD (context - 1) 0 then 1 else 0
  if (response : ℚ) = label then 1 else 0

def get_global_model_response (number : ℚ) (context : Nat) (label : ℚ) : Nat :=
  let response : Nat := if number > GLOBAL_MEAN then 1 else 0
  if (response : ℚ) = label then 1 else 0

/-- Modelled from the spec: the local baseline responds 1 exactly when the
stimulus exceeds the mean of the trial's own context range: the low-range
mean for context 1, the high-range mean for context 2. -/
def spec_local_model_response (number : ℚ) (context : Nat) (label : ℚ) : Nat :=
  let median : ℚ := if context = 1 then CONTEXT_LOW_MEAN else CONTEXT_HIGH_MEAN
  let response : Nat := if number > median then 1 else 0
  if (response : ℚ) = label then 1 else 0

/-- C9: the code's local baseline uses the wrong means for this
repository's two contexts: at stimulus 3 in context 1 (low range) with
label 1 it compares against the full-range mean 4.5 instead of the
low-range mean 2.5 and is scored 0 where the spec's policy scores 1; at
stimulus 3 in context 2 (high range) with label 1 it compares against the
low-range mean 2.5 instead of the high-range mean 6.5 and is scored 1
where the spec's policy scores 0.  The global baseline does follow the
spec: respond 1 exactly when the stimulus exceeds the overall mean 4.5. -/
theorem local_baseline_divergence :
    get_local_model_response 3 1 1 = 0 ∧
    spec_local_model_response 3 1 1 = 1 ∧
    get_local_model_response 3 2 1 = 1 ∧
    spec_local_model_response 3 2 1 = 0 ∧
    get_global_model_response 5 1 1 = 1 ∧
    get_global_model_response 4 1 0 = 1 := by
  refine ⟨?_, ?_, ?_, ?_, ?_, ?_⟩ <;>
    norm_num [get_local_model_response, spec_local_model_response,
      get_global_model_response, CONTEXT_FULL_MEAN, CONTEXT_LOW_MEAN,
      CONTEXT_HIGH_MEAN, GLOBAL_MEAN, rangeMean, FULLR_LLIM, FULLR_ULIM,
      LOWR_LLIM, LOWR_ULIM, HIGHR_LLIM, HIGHR_ULIM, List.range']

end KnowledgeAssembly
